import Mathlib

/-!
Shallow embedding of the sequence codec, vocabulary builder, reward-shaping
utilities and results aggregation of `model/mol_methods.py`.

Python strings are modelled as `List Char`; Python dicts as insertion-ordered
association lists (`alookup` is first-match lookup, `dictU` is the assignment
`d[k] = v`: overwrite in place when the key is present, append otherwise).
Fallible Python evaluation (KeyError, ZeroDivisionError) is modelled with
`Option`. Python numbers are modelled exactly: by `ℚ` where the code only uses
field operations, and by `ℝ` for the Gaussian reward shapes. The external
structure parser (rdkit) is an out-of-scope collaborator per the spec and is
modelled as a parameter `parse : List Char → Option M` together with
`numAtoms : M → Nat`.
-/

namespace Org

/-- First-match lookup in an association list (Python `d[k]` / `k in d`). -/
def alookup {α β : Type} [DecidableEq α] : List (α × β) → α → Option β
  | [], _ => none
  | p :: l, k => if p.1 = k then some p.2 else alookup l k

/-- Python dict assignment `d[k] = v`: overwrite in place when the key is
present, append at the end otherwise. -/
def dictU {α β : Type} [DecidableEq α] (d : List (α × β)) (k : α) (v : β) :
    List (α × β) :=
  if (alookup d k).isSome then d.map fun p => if p.1 = k then (k, v) else p
  else d ++ [(k, v)]

/-- A Python list comprehension over a fallible elementwise computation:
the first failure (raised exception) aborts the whole comprehension. -/
def omap {α β : Type} (f : α → Option β) : List α → Option (List β)
  | [] => some []
  | a :: l =>
    match f a with
    | none => none
    | some b =>
      match omap f l with
      | none => none
      | some bs => some (b :: bs)

/-- The mutable state of `build_vocab`'s scan: the two dictionaries and the
next unused code `i`. -/
structure VS where
  cd : List (Char × Nat)
  od : List (Nat × Char)
  i : Nat

/-- Body of the inner loop of `build_vocab`: on first sighting of a character,
assign it the next unused code in both dictionaries. -/
def scanChar (st : VS) (c : Char) : VS :=
  if (alookup st.cd c).isSome then st
  else ⟨st.cd ++ [(c, st.i)], st.od ++ [(st.i, c)], st.i + 1⟩

/-- Inner loop of `build_vocab` over one corpus string. -/
def scanStr (st : VS) (w : List Char) : VS := w.foldl scanChar st

/-- Outer loop of `build_vocab` over the corpus. -/
def scanAll (st : VS) (ws : List (List Char)) : VS := ws.foldl scanStr st

/-- `build_vocab(smiles, pad_char, start_char)`: start symbol gets code 0, the
scan assigns codes to unseen characters in corpus order, and finally
`char_dict[pad_char], ord_dict[i] = i, pad_char`. -/
def build_vocab (smiles : List (List Char)) (pad_char start_char : Char) :
    List (Char × Nat) × List (Nat × Char) :=
  let st := scanAll ⟨[(start_char, 0)], [(0, start_char)], 1⟩ smiles
  (dictU st.cd pad_char st.i, dictU st.od st.i pad_char)

/-- `pad(smile, n, pad_char)`: unchanged if `n < len(smile)`, else right-pad
with `pad_char` to length `n`. -/
def pad (smile : List Char) (n : Nat) (pad_char : Char) : List Char :=
  if n < smile.length then smile
  else smile ++ List.replicate (n - smile.length) pad_char

/-- `unpad(smile, pad_char)`: Python `str.rstrip(pad_char)`, stripping every
trailing occurrence of `pad_char`. -/
def unpad (smile : List Char) (pad_char : Char) : List Char :=
  (smile.reverse.dropWhile fun c => c == pad_char).reverse

/-- `encode(smile, max_len, char_dict)`: pads with the module's default pad
character `'_'` (the call site `pad(smile, max_len)` uses the default) and
looks every character up in `char_dict`; a missing character is a KeyError,
modelled as `none`. -/
def encode (smile : List Char) (max_len : Nat) (char_dict : List (Char × Nat)) :
    Option (List Nat) :=
  omap (alookup char_dict) (pad smile max_len '_')

/-- `decode(ords, ord_dict)`: looks every code up in `ord_dict`, joins, and
strips the module's default pad character `'_'` (the call site `unpad(...)`
uses the default). -/
def decode (ords : List Nat) (ord_dict : List (Nat × Char)) :
    Option (List Char) :=
  (omap (alookup ord_dict) ords).map fun cs => unpad cs '_'

/-- `remap(x, x_min, x_max)`, translated branch for branch. -/
def remap (x x_min x_max : ℚ) : ℚ :=
  if x_max ≠ 0 ∧ x_min ≠ 0 then 0
  else if x_max - x_min = 0 then x
  else (x - x_min) / (x_max - x_min)

/-- `constant_bump_func(x, x_low, x_high, decay)`: Gaussian decay outside
`[x_low, x_high]`, constant 1 strictly inside; the boundary points fall into
the decay branches. -/
noncomputable def constant_bump_func (x x_low x_high decay : ℝ) : ℝ :=
  if x ≤ x_low then Real.exp (-(x - x_low) ^ 2 / decay)
  else if x_high ≤ x then Real.exp (-(x - x_high) ^ 2 / decay)
  else 1

/-- `constant_bump` on a scalar argument (the `hasattr` dispatch falls through
to `constant_bump_func`). -/
noncomputable def constant_bump (x x_low x_high decay : ℝ) : ℝ :=
  constant_bump_func x x_low x_high decay

/-- `verify_sequence(smile)`: non-empty, parsed by the external parser, and
more than one atom. -/
def verify_sequence {M : Type} (parse : List Char → Option M)
    (numAtoms : M → Nat) (smile : List Char) : Bool :=
  match parse smile with
  | none => false
  | some mol => decide (smile ≠ []) && decide (1 < numAtoms mol)

/-- `apply_to_valid(smile, fun)`: `fun(mol)` when the validity conjunction
holds, `0.0` otherwise. -/
def apply_to_valid {M : Type} (parse : List Char → Option M)
    (numAtoms : M → Nat) (smile : List Char) (f : M → ℚ) : ℚ :=
  match parse smile with
  | none => 0
  | some mol => if smile ≠ [] ∧ 1 < numAtoms mol then f mol else 0

/-- `np.mean` of a list of integers: `nan` (modelled `none`) on the empty
list, otherwise the exact rational mean. -/
def pymean (ls : List Nat) : Option ℚ :=
  if ls.length = 0 then none
  else some ((ls.map fun n => (n : ℚ)).sum / ls.length)

/-- The results dict of `compute_results` / `print_results`: each field is
`none` while the corresponding key is absent. -/
structure ResultsRec where
  mean_length : Option (Option ℚ)
  n_samples : Option Nat
  uniq_samples : Option Nat
  good_samples : Option Nat
  bad_samples : Option Nat
  batch : Option Nat
  exp_name : Option (List Char)
  model_samples : Option (List Char)
deriving DecidableEq

/-- `'{}_{}'.format(results['exp_name'], results['Batch'])`. -/
def smiName (exp_name : List Char) (b : Nat) : List Char :=
  exp_name ++ '_' :: (Nat.repr b).toList

/-- `compute_results(model_samples, train_data, ord_dict, results, verbose)`.
The value is `some (record, returnValue)` on normal termination — `record` is
the mutated dict and `returnValue` the Python return value (`none` = `None`,
from the bare `return`) — and `none` when the call raises: a decode KeyError,
a missing `exp_name` key when `Batch` is present, or the ZeroDivisionError of
`print_results` on an empty batch when `verbose` is set.  The file write of
`save_smi` is external I/O; its record mutation `results['model_samples']` is
kept. -/
def compute_results {M : Type} (parse : List Char → Option M)
    (numAtoms : M → Nat) (model_samples : List (List Nat))
    (_train_data : List (List Char)) (ord_dict : List (Nat × Char))
    (verbose : Bool) (results : ResultsRec) :
    Option (ResultsRec × Option ResultsRec) :=
  match omap (fun s => decode s ord_dict) model_samples with
  | none => none
  | some samples =>
    let r1 : ResultsRec :=
      { results with
        mean_length := some (pymean (samples.map List.length))
        n_samples := some samples.length
        uniq_samples := some samples.dedup.length
        good_samples := some (samples.filter (verify_sequence parse numAtoms)).length
        bad_samples := some (samples.filter fun s => !(verify_sequence parse numAtoms s)).length }
    match r1.batch with
    | some b =>
      match r1.exp_name with
      | none => none
      | some en =>
        let r2 := { r1 with model_samples := some (smiName en b) }
        if verbose && samples.isEmpty then none else some (r2, none)
    | none => if verbose && samples.isEmpty then none else some (r1, none)

/-- Python float division: ZeroDivisionError, modelled `none`, when the
divisor is zero. -/
def pydiv (a b : ℚ) : Option ℚ :=
  if b = 0 then none else some (a / b)

/-- The three percentage computations of `print_results` (unique, unverified,
verified), each `results[...] / float(results['n_samples']) * 100`, exactly as
unguarded as the source: `none` when a key is missing or a division raises. -/
def print_results_calc (results : ResultsRec) : Option (ℚ × ℚ × ℚ) :=
  match results.n_samples, results.uniq_samples, results.bad_samples,
      results.good_samples with
  | some n, some u, some b, some g =>
    match pydiv (u : ℚ) (n : ℚ) with
    | none => none
    | some pu =>
      match pydiv (b : ℚ) (n : ℚ) with
      | none => none
      | some pb =>
        match pydiv (g : ℚ) (n : ℚ) with
        | none => none
        | some pg => some (pu * 100, pb * 100, pg * 100)
  | _, _, _, _ => none

/-- An empty results dict. -/
def R0 : ResultsRec := ⟨none, none, none, none, none, none, none, none⟩

/-- A concrete opaque parser rejecting every string (for witnesses). -/
def pf0 : List Char → Option Unit := fun _ => none

/-- Atom count for the trivial structure type (for witnesses). -/
def af0 : Unit → Nat := fun _ => 0

/-- The `ord_dict` of `build_vocab([])` with default pad and start symbols. -/
def OD0 : List (Nat × Char) := (build_vocab [] '_' '^').2

end Org

namespace Org

theorem alookup_append_some {α β : Type} [DecidableEq α] {l₁ l₂ : List (α × β)}
    {k : α} {v : β} (h : alookup l₁ k = some v) :
    alookup (l₁ ++ l₂) k = some v := by
  induction l₁ with
  | nil => simp [alookup] at h
  | cons p l ih =>
    by_cases hp : p.1 = k
    · simpa [alookup, hp] using h
    · simp only [alookup, hp, if_false, List.cons_append, if_neg hp] at h ⊢
      exact ih h

theorem alookup_append_none {α β : Type} [DecidableEq α] {l₁ : List (α × β)}
    (l₂ : List (α × β)) {k : α} (h : alookup l₁ k = none) :
    alookup (l₁ ++ l₂) k = alookup l₂ k := by
  induction l₁ with
  | nil => rfl
  | cons p l ih =>
    by_cases hp : p.1 = k
    · simp [alookup, hp] at h
    · simp only [alookup, if_neg hp, List.cons_append] at h ⊢
      exact ih h

theorem alookup_mem {α β : Type} [DecidableEq α] {l : List (α × β)} {k : α}
    {v : β} (h : alookup l k = some v) : (k, v) ∈ l := by
  induction l with
  | nil => simp [alookup] at h
  | cons p l ih =>
    by_cases hp : p.1 = k
    · have h2 : p.2 = v := by simpa [alookup, hp] using h
      have he : p = (k, v) := by
        cases p
        simp_all
      exact he ▸ List.mem_cons_self p l
    · simp only [alookup, if_neg hp] at h
      exact List.mem_cons_of_mem p (ih h)

theorem alookup_eq_none {α β : Type} [DecidableEq α] {l : List (α × β)} {k : α} :
    alookup l k = none ↔ ∀ p ∈ l, p.1 ≠ k := by
  induction l with
  | nil => simp [alookup]
  | cons p l ih =>
    by_cases hp : p.1 = k
    · simp [alookup, hp]
    · simp [alookup, hp, ih]

theorem alookup_of_mem_nodup {α β : Type} [DecidableEq α] {l : List (α × β)}
    {k : α} {v : β} (nd : (l.map Prod.fst).Nodup) (h : (k, v) ∈ l) :
    alookup l k = some v := by
  induction l with
  | nil => simp at h
  | cons p l ih =>
    rw [List.map_cons, List.nodup_cons] at nd
    rcases List.mem_cons.mp h with h1 | h1
    · rw [← h1]
      simp [alookup]
    · have hp : p.1 ≠ k := by
        intro e
        exact nd.1 (e ▸ List.mem_map_of_mem Prod.fst h1)
      simp only [alookup, if_neg hp]
      exact ih nd.2 h1

theorem alookup_map_overwrite {α β : Type} [DecidableEq α] {d : List (α × β)}
    {k : α} (v : β) (h : (alookup d k).isSome) :
    alookup (d.map fun p => if p.1 = k then (k, v) else p) k = some v := by
  induction d with
  | nil => simp [alookup] at h
  | cons p l ih =>
    by_cases hp : p.1 = k
    · simp [alookup, hp]
    · simp only [alookup, if_neg hp] at h
      simpa [alookup, hp] using ih h

theorem alookup_dictU_same {α β : Type} [DecidableEq α] (d : List (α × β))
    (k : α) (v : β) : alookup (dictU d k v) k = some v := by
  by_cases h : (alookup d k).isSome
  · rw [dictU, if_pos h]
    exact alookup_map_overwrite v h
  · rw [dictU, if_neg h,
      alookup_append_none _ (Option.not_isSome_iff_eq_none.mp h)]
    simp [alookup]

theorem dictU_append {α β : Type} [DecidableEq α] {d : List (α × β)} {k : α}
    (v : β) (h : alookup d k = none) : dictU d k v = d ++ [(k, v)] := by
  simp [dictU, h]

theorem mem_dictU {α β : Type} [DecidableEq α] {d : List (α × β)} {k : α}
    {v : β} {p : α × β} (h : p ∈ dictU d k v) :
    p = (k, v) ∨ (p ∈ d ∧ p.1 ≠ k) := by
  by_cases hs : (alookup d k).isSome
  · rw [dictU, if_pos hs] at h
    obtain ⟨q, hq, he⟩ := List.mem_map.mp h
    by_cases hqk : q.1 = k
    · rw [if_pos hqk] at he
      exact Or.inl he.symm
    · rw [if_neg hqk] at he
      exact Or.inr ⟨he ▸ hq, he ▸ hqk⟩
  · rw [dictU, if_neg hs] at h
    rcases List.mem_append.mp h with h1 | h1
    · refine Or.inr ⟨h1, ?_⟩
      exact alookup_eq_none.mp (Option.not_isSome_iff_eq_none.mp hs) p h1
    · exact Or.inl (by simpa using h1)

theorem omap_length {α β : Type} {f : α → Option β} {l : List α} {bs : List β}
    (h : omap f l = some bs) : bs.length = l.length := by
  induction l generalizing bs with
  | nil =>
    simp only [omap, Option.some.injEq] at h
    rw [← h]
    rfl
  | cons a l ih =>
    simp only [omap] at h
    cases hf : f a with
    | none => rw [hf] at h; exact absurd h (by simp)
    | some b =>
      rw [hf] at h
      cases ho : omap f l with
      | none => rw [ho] at h; exact absurd h (by simp)
      | some bs' =>
        rw [ho] at h
        simp only [Option.some.injEq] at h
        rw [← h]
        simp [ih ho]

theorem omap_roundtrip {α β : Type} {f : α → Option β} {g : β → Option α}
    {l : List α} (h1 : ∀ a ∈ l, (f a).isSome)
    (h2 : ∀ a b, f a = some b → g b = some a) :
    ∃ bs, omap f l = some bs ∧ omap g bs = some l := by
  induction l with
  | nil => exact ⟨[], rfl, rfl⟩
  | cons a l ih =>
    have ha : (f a).isSome := h1 a (List.mem_cons_self a l)
    cases hf : f a with
    | none => rw [hf] at ha; exact absurd ha (by simp)
    | some b =>
      obtain ⟨bs, hb1, hb2⟩ := ih fun x hx => h1 x (List.mem_cons_of_mem a hx)
      refine ⟨b :: bs, ?_, ?_⟩
      · simp only [omap, hf, hb1]
      · simp only [omap, h2 a b hf, hb2]

theorem dropWhile_beq_replicate (k : Nat) (pc : Char) (t : List Char) :
    List.dropWhile (fun c => c == pc) (List.replicate k pc ++ t) =
      List.dropWhile (fun c => c == pc) t := by
  induction k with
  | zero => rfl
  | succ k ih => simp [List.replicate_succ, List.dropWhile, ih]

theorem dropWhile_beq_of_not_mem {pc : Char} {t : List Char} (h : pc ∉ t) :
    List.dropWhile (fun c => c == pc) t = t := by
  cases t with
  | nil => rfl
  | cons a l =>
    have ha : (a == pc) = false := by
      simp only [beq_eq_false_iff_ne, ne_eq]
      intro e
      exact h (e ▸ List.mem_cons_self a l)
    simp [List.dropWhile, ha]

theorem unpad_append_replicate {s : List Char} (k : Nat) {pc : Char}
    (h : pc ∉ s) : unpad (s ++ List.replicate k pc) pc = s := by
  rw [unpad, List.reverse_append, List.reverse_replicate,
    dropWhile_beq_replicate, dropWhile_beq_of_not_mem (by simpa using h),
    List.reverse_reverse]

theorem pad_eq_append {s : List Char} {n : Nat} {pc : Char}
    (h : ¬ n < s.length) : pad s n pc = s ++ List.replicate (n - s.length) pc := by
  simp [pad, h]

theorem pad_length (s : List Char) (n : Nat) (pc : Char) :
    (pad s n pc).length = max s.length n := by
  by_cases h : n < s.length
  · simp [pad, h, Nat.max_eq_left (Nat.le_of_lt h)]
  · rw [pad_eq_append h]
    push_neg at h
    simp [Nat.max_eq_right h, Nat.add_sub_cancel' h]

/-- Claim C4 counterexample: `remap(5, 0, 10)` does not return `0` — the
quirk branch requires both bounds nonzero, but `x_min = 0` here. -/
theorem remap_five_cex : remap 5 0 10 ≠ 0 := by norm_num [remap]

/-- Claim C4 (amended): `remap(5, 0, 10)` returns `0.5`: since `x_min = 0`
the both-bounds-nonzero branch is skipped and the linear rescale
`(5 - 0) / (10 - 0)` applies. -/
theorem remap_five_amended : remap 5 0 10 = 1 / 2 := by norm_num [remap]

/-- Claim C5 counterexample: `remap(3, 2, 2)` returns `0`, not the input `3`:
with both bounds equal and nonzero, the first branch fires before the
degenerate-equality branch. -/
theorem remap_deg_cex : remap 3 2 2 ≠ 3 := by norm_num [remap]

/-- Claim C5 (amended): `remap(x, c, c)` returns `x` unchanged exactly when
`c = 0`; for every `c ≠ 0` the both-bounds-nonzero branch returns `0`. -/
theorem remap_deg_amended (x c : ℚ) : remap x c c = if c = 0 then x else 0 := by
  by_cases hc : c = 0
  · subst hc
    simp [remap]
  · simp [remap, hc]

/-- Claim C9: `pad(s, n, pad_char)` returns `s` unchanged whenever
`len(s) >= n` (a string of length exactly `n` is returned unpadded and a
longer string is never truncated); otherwise the result has length exactly
`n` and starts with `s`. -/
theorem pad_correct (s : List Char) (n : Nat) (pc : Char) :
    (n ≤ s.length → pad s n pc = s) ∧
    (s.length < n →
      (pad s n pc).length = n ∧ (pad s n pc).take s.length = s) := by
  constructor
  · intro h
    by_cases h2 : n < s.length
    · simp [pad, h2]
    · have e : n = s.length := Nat.le_antisymm h (Nat.not_lt.mp h2)
      simp [pad, h2, e]
  · intro h
    have h2 : ¬ n < s.length := by omega
    constructor
    · rw [pad_length]
      exact Nat.max_eq_right (Nat.le_of_lt h)
    · rw [pad_eq_append h2]
      simp

/-- Claim C9 witness: a length-2 string is returned unchanged by `pad` to
width 2, and padding a length-1 string to width 3 gives length 3 with the
original string as its start. -/
theorem pad_correct_witness :
    pad ['a', 'b'] 2 '_' = ['a', 'b'] ∧
    ((pad ['a'] 3 '_').length = 3 ∧ (pad ['a'] 3 '_').take 1 = ['a']) :=
  ⟨(pad_correct ['a', 'b'] 2 '_').1 (by decide),
   (pad_correct ['a'] 3 '_').2 (by decide)⟩

/-- The vocabulary of the corpus `["ab"]` with default pad and start
symbols: `^ -> 0, a -> 1, b -> 2, _ -> 3`. -/
def CDab : List (Char × Nat) := (build_vocab [['a', 'b']] '_' '^').1

/-- Claim C3 counterexample: encoding the in-vocabulary string `"ab"` with
`max_len = 1` yields a sequence of length 2, not `max_len` — `pad` never
truncates. -/
theorem encode_length_cex :
    (encode ['a', 'b'] 1 CDab).map List.length ≠ some 1 := by decide

/-- Claim C3 (amended): whenever `encode(s, max_len, char_dict)` succeeds it
returns a sequence of length `max(len(s), max_len)`: exactly `max_len` when
`len(s) <= max_len`, and `len(s)` (no truncation) when `s` is longer. -/
theorem encode_length {s : List Char} {n : Nat} {cd : List (Char × Nat)}
    {l : List Nat} (h : encode s n cd = some l) : l.length = max s.length n := by
  have h2 : omap (alookup cd) (pad s n '_') = some l := h
  rw [omap_length h2, pad_length]

/-- Claim C3 witness: encoding `"a"` to width 3 over the `["ab"]` vocabulary
gives `[1, 3, 3]`, of length `max 1 3 = 3`. -/
theorem encode_length_witness :
    encode ['a'] 3 CDab = some [1, 3, 3] ∧
    [1, 3, 3].length = max (['a'] : List Char).length 3 :=
  ⟨by decide, @encode_length ['a'] 3 CDab [1, 3, 3] (by decide)⟩

theorem scanStr_pres (P : VS → Prop) (hstep : ∀ st c, P st → P (scanChar st c)) :
    ∀ (w : List Char) (st : VS), P st → P (scanStr st w) := by
  intro w
  induction w with
  | nil => intro st h; exact h
  | cons c w ih =>
    intro st h
    exact ih (scanChar st c) (hstep st c h)

theorem scanAll_pres (P : VS → Prop) (hstep : ∀ st c, P st → P (scanChar st c)) :
    ∀ (ws : List (List Char)) (st : VS), P st → P (scanAll st ws) := by
  intro ws
  induction ws with
  | nil => intro st h; exact h
  | cons w ws ih =>
    intro st h
    exact ih (scanStr st w) (scanStr_pres P hstep w st h)

theorem scanChar_cd_mem {st : VS} {c : Char} {p : Char × Nat}
    (h : p ∈ (scanChar st c).cd) : p ∈ st.cd ∨ p.1 = c := by
  by_cases hc : (alookup st.cd c).isSome
  · rw [scanChar, if_pos hc] at h
    exact Or.inl h
  · rw [scanChar, if_neg hc] at h
    rcases List.mem_append.mp h with h1 | h1
    · exact Or.inl h1
    · have h2 : p = (c, st.i) := by simpa using h1
      exact Or.inr (by rw [h2])

theorem scanStr_cd_mem : ∀ (w : List Char) (st : VS) (p : Char × Nat),
    p ∈ (scanStr st w).cd → p ∈ st.cd ∨ p.1 ∈ w := by
  intro w
  induction w with
  | nil => intro st p h; exact Or.inl h
  | cons c w ih =>
    intro st p h
    have h2 : p ∈ (scanStr (scanChar st c) w).cd := h
    rcases ih (scanChar st c) p h2 with h3 | h3
    · rcases scanChar_cd_mem h3 with h4 | h4
      · exact Or.inl h4
      · exact Or.inr (by simp [h4])
    · exact Or.inr (List.mem_cons_of_mem c h3)

theorem scanAll_cd_mem : ∀ (ws : List (List Char)) (st : VS) (p : Char × Nat),
    p ∈ (scanAll st ws).cd → p ∈ st.cd ∨ ∃ w ∈ ws, p.1 ∈ w := by
  intro ws
  induction ws with
  | nil => intro st p h; exact Or.inl h
  | cons w ws ih =>
    intro st p h
    have h2 : p ∈ (scanAll (scanStr st w) ws).cd := h
    rcases ih (scanStr st w) p h2 with h3 | h3
    · rcases scanStr_cd_mem w st p h3 with h4 | h4
      · exact Or.inl h4
      · exact Or.inr ⟨w, List.mem_cons_self w ws, h4⟩
    · obtain ⟨w', hw', hc⟩ := h3
      exact Or.inr ⟨w', List.mem_cons_of_mem w hw', hc⟩

/-- Invariant of the `build_vocab` scan used for the codec round trip:
`ord_dict` inverts every entry of `char_dict`, and every code in `ord_dict`
is below the next unused code `i`. -/
def Inv1 (st : VS) : Prop :=
  (∀ p ∈ st.cd, alookup st.od p.2 = some p.1) ∧ ∀ q ∈ st.od, q.1 < st.i

theorem inv1_scanChar (st : VS) (c : Char) (h : Inv1 st) :
    Inv1 (scanChar st c) := by
  obtain ⟨h1, h2⟩ := h
  by_cases hc : (alookup st.cd c).isSome
  · rw [scanChar, if_pos hc]
    exact ⟨h1, h2⟩
  · have hodN : alookup st.od st.i = none :=
      alookup_eq_none.mpr fun q hq => Nat.ne_of_lt (h2 q hq)
    constructor
    · intro p hp
      rw [scanChar, if_neg hc] at hp ⊢
      rcases List.mem_append.mp hp with hm | hm
      · exact alookup_append_some (h1 p hm)
      · have he : p = (c, st.i) := by simpa using hm
        rw [he, alookup_append_none _ hodN]
        simp [alookup]
    · intro q hq
      rw [scanChar, if_neg hc] at hq ⊢
      rcases List.mem_append.mp hq with hm | hm
      · exact Nat.lt_succ_of_lt (h2 q hm)
      · have he : q = (st.i, c) := by simpa using hm
        rw [he]
        exact Nat.lt_succ_self st.i

theorem inv1_scanAll (smiles : List (List Char)) (sc : Char) :
    Inv1 (scanAll ⟨[(sc, 0)], [(0, sc)], 1⟩ smiles) := by
  refine scanAll_pres Inv1 inv1_scanChar smiles _ ⟨?_, ?_⟩
  · intro p hp
    have he : p = (sc, 0) := by simpa using hp
    rw [he]
    simp [alookup]
  · intro q hq
    have he : q = (0, sc) := by simpa using hq
    rw [he]
    exact Nat.one_pos

/-- One direction of the dictionary correspondence, with no hypothesis on the
pad or start characters: every `char_dict` binding is inverted by
`ord_dict`. -/
theorem vocab_inverse {smiles : List (List Char)} {pc sc : Char} {c : Char}
    {n : Nat} (h : alookup (build_vocab smiles pc sc).1 c = some n) :
    alookup (build_vocab smiles pc sc).2 n = some c := by
  have hinv := inv1_scanAll smiles sc
  simp only [build_vocab] at h ⊢
  have hodN : alookup (scanAll ⟨[(sc, 0)], [(0, sc)], 1⟩ smiles).od
      (scanAll ⟨[(sc, 0)], [(0, sc)], 1⟩ smiles).i = none :=
    alookup_eq_none.mpr fun q hq => Nat.ne_of_lt (hinv.2 q hq)
  rw [dictU_append pc hodN]
  rcases mem_dictU (alookup_mem h) with he | ⟨hm, _⟩
  · rw [(Prod.mk.injEq .. ▸ he : c = pc ∧ n = _).2,
      alookup_append_none _ hodN]
    simp [alookup, (Prod.mk.injEq .. ▸ he : c = pc ∧ n = _).1]
  · exact alookup_append_some (hinv.1 (c, n) hm)

/-- The pad character always receives a code in `char_dict`. -/
theorem build_pad_isSome (smiles : List (List Char)) (pc sc : Char) :
    (alookup (build_vocab smiles pc sc).1 pc).isSome := by
  simp only [build_vocab]
  rw [alookup_dictU_same]
  rfl

/-- Claim C1 counterexample: with the vocabulary built from corpus `["ab"]`
and pad character `'*'`, the string `"a"` meets every precondition of the
claim (all characters in the vocabulary, no pad or start character, length
below `max_len = 2`), yet the round trip fails: `encode` pads with the
hard-coded `'_'`, which has no code, so the lookup raises. -/
theorem roundtrip_cex :
    (alookup (build_vocab [['a', 'b']] '*' '^').1 'a').isSome ∧
    '*' ∉ (['a'] : List Char) ∧ '^' ∉ (['a'] : List Char) ∧
    (['a'] : List Char).length < 2 ∧
    (encode ['a'] 2 (build_vocab [['a', 'b']] '*' '^').1).bind
      (fun l => decode l (build_vocab [['a', 'b']] '*' '^').2) ≠
        some ['a'] := by
  decide

/-- Claim C1 (amended): the round trip holds for vocabularies whose pad
character is the module default `'_'` — the padding character hard-coded in
`encode` and in `decode`'s `unpad` — with any start character: for every
corpus, every string `s` whose characters are all in the vocabulary, with no
occurrence of the pad or start character, and `len(s) < max_len`,
`decode(encode(s, max_len, char_dict), ord_dict) = s`. -/
theorem roundtrip (smiles : List (List Char)) (sc : Char) (s : List Char)
    (max_len : Nat)
    (hv : ∀ c ∈ s, (alookup (build_vocab smiles '_' sc).1 c).isSome)
    (hp : '_' ∉ s) (_hs : sc ∉ s) (hl : s.length < max_len) :
    (encode s max_len (build_vocab smiles '_' sc).1).bind
      (fun l => decode l (build_vocab smiles '_' sc).2) = some s := by
  have hpad : pad s max_len '_' =
      s ++ List.replicate (max_len - s.length) '_' := pad_eq_append (by omega)
  have hv2 : ∀ c ∈ pad s max_len '_',
      (alookup (build_vocab smiles '_' sc).1 c).isSome := by
    intro c hc
    rw [hpad] at hc
    rcases List.mem_append.mp hc with hm | hm
    · exact hv c hm
    · rw [List.eq_of_mem_replicate hm]
      exact build_pad_isSome smiles '_' sc
  obtain ⟨ns, he, hd⟩ :=
    omap_roundtrip hv2 fun a b hab => vocab_inverse hab
  have he2 : encode s max_len (build_vocab smiles '_' sc).1 = some ns := he
  rw [he2, Option.some_bind, decode, hd, Option.map_some', hpad,
    unpad_append_replicate _ hp]

/-- Claim C1 witness: over the corpus `["ab"]` with the default symbols,
`"ba"` round-trips through `encode`/`decode` at `max_len = 4`. -/
theorem roundtrip_witness :
    (encode ['b', 'a'] 4 (build_vocab [['a', 'b']] '_' '^').1).bind
      (fun l => decode l (build_vocab [['a', 'b']] '_' '^').2) =
        some ['b', 'a'] :=
  roundtrip [['a', 'b']] '^' ['b', 'a'] 4 (by decide) (by decide) (by decide)
    (by decide)

/-- Invariant of the `build_vocab` scan used for the bijection claim:
`ord_dict` is the entrywise swap of `char_dict`, the codes are `0..i-1` in
insertion order, the keys are distinct, and the start symbol heads the
dictionary with code 0. -/
def Inv2 (sc : Char) (st : VS) : Prop :=
  st.od = st.cd.map (fun p => (p.2, p.1)) ∧
  st.cd.map Prod.snd = List.range st.i ∧
  (st.cd.map Prod.fst).Nodup ∧
  ∃ r, st.cd = (sc, 0) :: r

theorem inv2_scanChar (sc : Char) (st : VS) (c : Char) (h : Inv2 sc st) :
    Inv2 sc (scanChar st c) := by
  obtain ⟨h1, h2, h3, r, h4⟩ := h
  by_cases hc : (alookup st.cd c).isSome
  · rw [scanChar, if_pos hc]
    exact ⟨h1, h2, h3, r, h4⟩
  · have hnone : alookup st.cd c = none := Option.not_isSome_iff_eq_none.mp hc
    have hcmem : c ∉ st.cd.map Prod.fst := by
      intro hm
      obtain ⟨p, hp, he⟩ := List.mem_map.mp hm
      exact alookup_eq_none.mp hnone p hp he
    refine ⟨?_, ?_, ?_, ?_⟩
    · rw [scanChar, if_neg hc]
      show st.od ++ [(st.i, c)] = (st.cd ++ [(c, st.i)]).map _
      rw [List.map_append, ← h1]
      rfl
    · rw [scanChar, if_neg hc]
      show (st.cd ++ [(c, st.i)]).map Prod.snd = List.range (st.i + 1)
      rw [List.map_append, h2, List.range_succ]
      rfl
    · rw [scanChar, if_neg hc]
      show ((st.cd ++ [(c, st.i)]).map Prod.fst).Nodup
      rw [List.map_append]
      exact ((List.perm_append_singleton _ _).nodup_iff).mpr
        (List.nodup_cons.mpr ⟨hcmem, h3⟩)
    · rw [scanChar, if_neg hc]
      exact ⟨r ++ [(c, st.i)], by rw [h4]; rfl⟩

theorem inv2_scanAll (smiles : List (List Char)) (sc : Char) :
    Inv2 sc (scanAll ⟨[(sc, 0)], [(0, sc)], 1⟩ smiles) := by
  refine scanAll_pres (Inv2 sc) (inv2_scanChar sc) smiles _
    ⟨rfl, ?_, List.nodup_singleton sc, ⟨[], rfl⟩⟩
  rfl

/-- Claim C2 counterexample: for corpus `["_"]` with the default pad and
start characters, the dictionaries are not mutually inverse: the final pad
assignment overwrites the corpus code of `'_'`, so `ord_dict` still maps
code 1 to `'_'` while `char_dict` maps `'_'` to 2. -/
theorem build_vocab_cex :
    ¬ (alookup (build_vocab [['_']] '_' '^').1 '_' = some 1 ↔
        alookup (build_vocab [['_']] '_' '^').2 1 = some '_') := by
  decide

/-- Claim C2 (amended): whenever the pad character neither occurs in the
corpus nor equals the start character, `build_vocab` returns mutually
inverse dictionaries over the same bindings; the start character gets
code 0; the pad character gets a code `m` that is the maximum of all codes,
one past every code assigned to a corpus character; and the codes are
exactly `0..size-1`. -/
theorem build_vocab_spec (smiles : List (List Char)) (pc sc : Char)
    (hpc : ∀ w ∈ smiles, pc ∉ w) (hps : pc ≠ sc) :
    (∀ c k, alookup (build_vocab smiles pc sc).1 c = some k ↔
      alookup (build_vocab smiles pc sc).2 k = some c) ∧
    alookup (build_vocab smiles pc sc).1 sc = some 0 ∧
    (∃ m, alookup (build_vocab smiles pc sc).1 pc = some m ∧
      (∀ c k, alookup (build_vocab smiles pc sc).1 c = some k → k ≤ m) ∧
      (∀ c k, c ≠ pc →
        alookup (build_vocab smiles pc sc).1 c = some k → k < m)) ∧
    (build_vocab smiles pc sc).1.map Prod.snd =
      List.range (build_vocab smiles pc sc).1.length := by
  obtain ⟨hmir, hsnd, hfst, r, hhead⟩ := inv2_scanAll smiles sc
  set st := scanAll ⟨[(sc, 0)], [(0, sc)], 1⟩ smiles with hstDef
  have hfreshCd : alookup st.cd pc = none := by
    rw [alookup_eq_none]
    intro p hp hpk
    rcases scanAll_cd_mem smiles _ p hp with hm | ⟨w, hw, hcw⟩
    · have he : p = (sc, 0) := by simpa using hm
      rw [he] at hpk
      exact hps hpk.symm
    · rw [hpk] at hcw
      exact hpc w hw hcw
  have hcdLen : st.cd.length = st.i := by
    have h2 := congrArg List.length hsnd
    simpa using h2
  have hodKeys : ∀ q ∈ st.od, q.1 < st.i := by
    intro q hq
    rw [hmir] at hq
    obtain ⟨p, hp, he⟩ := List.mem_map.mp hq
    have h2 : p.2 ∈ st.cd.map Prod.snd := List.mem_map_of_mem Prod.snd hp
    rw [hsnd] at h2
    rw [← he]
    exact List.mem_range.mp h2
  have hfreshOd : alookup st.od st.i = none :=
    alookup_eq_none.mpr fun q hq => Nat.ne_of_lt (hodKeys q hq)
  have hcd : (build_vocab smiles pc sc).1 = st.cd ++ [(pc, st.i)] := by
    show dictU st.cd pc st.i = st.cd ++ [(pc, st.i)]
    exact dictU_append st.i hfreshCd
  have hod : (build_vocab smiles pc sc).2 = st.od ++ [(st.i, pc)] := by
    show dictU st.od st.i pc = st.od ++ [(st.i, pc)]
    exact dictU_append pc hfreshOd
  have hmirCD : st.od ++ [(st.i, pc)] =
      (st.cd ++ [(pc, st.i)]).map (fun p => (p.2, p.1)) := by
    rw [List.map_append, ← hmir]
    rfl
  have hsndCD : (st.cd ++ [(pc, st.i)]).map Prod.snd = List.range (st.i + 1) := by
    rw [List.map_append, hsnd, List.range_succ]
    rfl
  have hfstCD : ((st.cd ++ [(pc, st.i)]).map Prod.fst).Nodup := by
    rw [List.map_append]
    refine ((List.perm_append_singleton _ _).nodup_iff).mpr
      (List.nodup_cons.mpr ⟨?_, hfst⟩)
    intro hm
    obtain ⟨p, hp, he⟩ := List.mem_map.mp hm
    exact alookup_eq_none.mp hfreshCd p hp he
  have hfstOD : ((st.od ++ [(st.i, pc)]).map Prod.fst).Nodup := by
    rw [hmirCD, List.map_map]
    have he : (Prod.fst ∘ fun p : Char × Nat => (p.2, p.1)) = Prod.snd := rfl
    rw [he, hsndCD]
    exact List.nodup_range _
  rw [hcd, hod]
  refine ⟨?_, ?_, ?_, ?_⟩
  · intro c k
    constructor
    · intro h
      have hm : ((c, k).2, (c, k).1) ∈
          (st.cd ++ [(pc, st.i)]).map (fun p => (p.2, p.1)) :=
        List.mem_map_of_mem _ (alookup_mem h)
      rw [← hmirCD] at hm
      exact alookup_of_mem_nodup hfstOD hm
    · intro h
      have hm := alookup_mem h
      rw [hmirCD] at hm
      obtain ⟨p, hp, he⟩ := List.mem_map.mp hm
      obtain ⟨a, b⟩ := p
      simp only [Prod.mk.injEq] at he
      rw [← he.1, ← he.2]
      exact alookup_of_mem_nodup hfstCD hp
  · rw [hhead]
    simp [alookup]
  · refine ⟨st.i, ?_, ?_, ?_⟩
    · rw [alookup_append_none _ hfreshCd]
      simp [alookup]
    · intro c k h
      have hm : k ∈ (st.cd ++ [(pc, st.i)]).map Prod.snd :=
        List.mem_map_of_mem Prod.snd (alookup_mem h)
      rw [hsndCD] at hm
      exact Nat.lt_succ_iff.mp (List.mem_range.mp hm)
    · intro c k hcpc h
      rcases List.mem_append.mp (alookup_mem h) with hm1 | hm1
      · have hm2 : k ∈ st.cd.map Prod.snd := List.mem_map_of_mem Prod.snd hm1
        rw [hsnd] at hm2
        exact List.mem_range.mp hm2
      · have he : (c, k) = (pc, st.i) := by simpa using hm1
        exact absurd (congrArg Prod.fst he) hcpc
  · rw [List.length_append, hcdLen]
    exact hsndCD

/-- Claim C2 witness: over the corpus `["ab"]` with the default symbols, the
start character receives code 0. -/
theorem build_vocab_spec_witness :
    alookup (build_vocab [['a', 'b']] '_' '^').1 '^' = some 0 :=
  (build_vocab_spec [['a', 'b']] '_' '^' (by decide) (by decide)).2.1

/-- Claim C6: `apply_to_valid` is total and returns `fun(mol)` exactly when
the string is non-empty, the external parser accepts it, and the structure
has more than one atom; in every other case — in particular whenever the
parser fails — it returns the `0.0` default rather than surfacing an error.
The parser is modelled, per the spec's external-interface contract, as an
opaque function returning a structure or an invalid outcome. -/
theorem apply_to_valid_total {M : Type} (parse : List Char → Option M)
    (numAtoms : M → Nat) (s : List Char) (f : M → ℚ) :
    (∀ m, parse s = some m → s ≠ [] → 1 < numAtoms m →
      apply_to_valid parse numAtoms s f = f m) ∧
    (parse s = none → apply_to_valid parse numAtoms s f = 0) ∧
    (s = [] → apply_to_valid parse numAtoms s f = 0) ∧
    (∀ m, parse s = some m → numAtoms m ≤ 1 →
      apply_to_valid parse numAtoms s f = 0) := by
  refine ⟨?_, ?_, ?_, ?_⟩
  · intro m hm hs ha
    simp [apply_to_valid, hm, hs, ha]
  · intro hm
    simp [apply_to_valid, hm]
  · intro hs
    subst hs
    cases hp : parse [] with
    | none => simp [apply_to_valid, hp]
    | some m => simp [apply_to_valid, hp]
  · intro m hm ha
    simp [apply_to_valid, hm, Nat.not_lt.mpr ha]

/-- A concrete opaque parser accepting non-empty strings, with the length as
atom count (for the C6 witness). -/
def parse1 : List Char → Option Nat :=
  fun s => if s.length = 0 then none else some s.length

/-- A concrete scoring function (for the C6 witness). -/
def f1 : Nat → ℚ := fun n => (n : ℚ)

/-- Claim C6 witness: on `"ab"` (accepted, two atoms) the score function is
applied; on the empty string the `0.0` default is returned. -/
theorem apply_to_valid_total_witness :
    apply_to_valid parse1 id ['a', 'b'] f1 = f1 2 ∧
    apply_to_valid parse1 id [] f1 = 0 :=
  ⟨(apply_to_valid_total parse1 id ['a', 'b'] f1).1 2 (by decide) (by decide)
      (by decide),
   (apply_to_valid_total parse1 id [] f1).2.2.1 rfl⟩

/-- The results record of an empty batch: every statistic key present and
zero. -/
def Rzero : ResultsRec :=
  { R0 with
    n_samples := some 0
    uniq_samples := some 0
    good_samples := some 0
    bad_samples := some 0 }

/-- Claim C7 (code bug): the percentage computations of `print_results` are
not guarded: on a batch with `n_samples = 0` each
`results[...] / float(results['n_samples'])` raises ZeroDivisionError
(modelled: the computation evaluates to `none`), so rendering the summary
fails on an empty batch. -/
theorem print_results_unguarded : print_results_calc Rzero = none := by
  rfl

/-- Claim C8 counterexample: on a decodable batch, `compute_results`
terminates normally but its Python return value — the second component — is
`None` (the function ends in a bare `return`), not the mutated record. -/
theorem compute_results_cex :
    (compute_results pf0 af0 [[1]] [] OD0 false R0).map Prod.snd =
      some none := by
  rfl

/-- Claim C8 (amended): `compute_results` mutates the provided record,
setting `mean_length`, `n_samples`, `uniq_samples`, `good_samples` and
`bad_samples` from the decoded batch, but its return value is `None` (bare
`return`), not the record; callers observe the results only through the
record they passed in. Stated for a batch that decodes and a record without
a `Batch` key, with `verbose` off. -/
theorem compute_results_mutates {M : Type} (parse : List Char → Option M)
    (numAtoms : M → Nat) (ms : List (List Nat)) (td : List (List Char))
    (od : List (Nat × Char)) (r : ResultsRec) (samples : List (List Char))
    (h : omap (fun s => decode s od) ms = some samples)
    (hb : r.batch = none) :
    compute_results parse numAtoms ms td od false r =
      some ({ r with
        mean_length := some (pymean (samples.map List.length))
        n_samples := some samples.length
        uniq_samples := some samples.dedup.length
        good_samples :=
          some (samples.filter (verify_sequence parse numAtoms)).length
        bad_samples := some (samples.filter fun s =>
          !(verify_sequence parse numAtoms s)).length }, none) := by
  simp [compute_results, h, hb]

/-- Claim C8 witness: a concrete run over the one-sample batch `[[0]]`
(which decodes to `"^"`), showing the mutated record and the `None` return
value. -/
theorem compute_results_mutates_witness :
    compute_results pf0 af0 [[0]] [] OD0 false R0 =
      some ({ R0 with
        mean_length := some (pymean ([['^']].map List.length))
        n_samples := some [['^']].length
        uniq_samples := some ([['^']] : List (List Char)).dedup.length
        good_samples :=
          some (([['^']] : List (List Char)).filter
            (verify_sequence pf0 af0)).length
        bad_samples := some (([['^']] : List (List Char)).filter fun s =>
          !(verify_sequence pf0 af0 s)).length }, none) :=
  compute_results_mutates pf0 af0 [[0]] [] OD0 R0 [['^']] (by decide) rfl

/-- Claim C10: for `x_low <= x_high` and `decay > 0`, `constant_bump` equals
1 at both boundary points — they fall into the Gaussian-decay branches, but
`exp(0) = 1` there — hence equals 1 on the whole closed interval
`[x_low, x_high]`, and the function is continuous at the two plateau
edges. -/
theorem constant_bump_boundary (lo hi d : ℝ) (hlh : lo ≤ hi) (_hd : 0 < d) :
    constant_bump lo lo hi d = 1 ∧ constant_bump hi lo hi d = 1 ∧
    (∀ x, lo ≤ x → x ≤ hi → constant_bump_func x lo hi d = 1) ∧
    ContinuousAt (fun x => constant_bump_func x lo hi d) lo ∧
    ContinuousAt (fun x => constant_bump_func x lo hi d) hi := by
  have hexp_lo : Continuous fun x : ℝ => Real.exp (-(x - lo) ^ 2 / d) :=
    Real.continuous_exp.comp
      ((((continuous_id.sub continuous_const).pow 2).neg).div_const d)
  have hexp_hi : Continuous fun x : ℝ => Real.exp (-(x - hi) ^ 2 / d) :=
    Real.continuous_exp.comp
      ((((continuous_id.sub continuous_const).pow 2).neg).div_const d)
  have hval : ∀ x, lo ≤ x → x ≤ hi → constant_bump_func x lo hi d = 1 := by
    intro x h1 h2
    by_cases hx : x ≤ lo
    · have e : x = lo := le_antisymm hx h1
      subst e
      rw [constant_bump_func, if_pos le_rfl]
      simp
    · by_cases hx2 : hi ≤ x
      · have e : x = hi := le_antisymm h2 hx2
        subst e
        rw [constant_bump_func, if_neg hx, if_pos le_rfl]
        simp
      · rw [constant_bump_func, if_neg hx, if_neg hx2]
  have hcont_lo : ContinuousAt (fun x => constant_bump_func x lo hi d) lo := by
    rcases eq_or_lt_of_le hlh with heq | hlt
    · subst heq
      have hfe : (fun x => constant_bump_func x lo lo d) =
          fun x : ℝ => Real.exp (-(x - lo) ^ 2 / d) := by
        funext x
        by_cases hx : x ≤ lo
        · rw [constant_bump_func, if_pos hx]
        · rw [constant_bump_func, if_neg hx,
            if_pos (le_of_lt (lt_of_not_le hx))]
      rw [hfe]
      exact hexp_lo.continuousAt
    · have hside : ∀ x : ℝ, x = lo → Real.exp (-(x - lo) ^ 2 / d) = 1 := by
        intro x e
        subst e
        simp
      have hgc : Continuous fun x : ℝ =>
          if x ≤ lo then Real.exp (-(x - lo) ^ 2 / d) else 1 :=
        Continuous.if_le hexp_lo continuous_const continuous_id
          continuous_const hside
      refine ContinuousAt.congr hgc.continuousAt ?_
      filter_upwards [Iio_mem_nhds hlt] with x hx
      by_cases h2 : x ≤ lo
      · rw [if_pos h2, constant_bump_func, if_pos h2]
      · rw [if_neg h2, constant_bump_func, if_neg h2,
          if_neg (not_le.mpr hx)]
  have hcont_hi : ContinuousAt (fun x => constant_bump_func x lo hi d) hi := by
    rcases eq_or_lt_of_le hlh with heq | hlt
    · subst heq
      have hfe : (fun x => constant_bump_func x lo lo d) =
          fun x : ℝ => Real.exp (-(x - lo) ^ 2 / d) := by
        funext x
        by_cases hx : x ≤ lo
        · rw [constant_bump_func, if_pos hx]
        · rw [constant_bump_func, if_neg hx,
            if_pos (le_of_lt (lt_of_not_le hx))]
      rw [hfe]
      exact hexp_lo.continuousAt
    · have hside : ∀ x : ℝ, hi = x → Real.exp (-(x - hi) ^ 2 / d) = 1 := by
        intro x e
        subst e
        simp
      have hgc : Continuous fun x : ℝ =>
          if hi ≤ x then Real.exp (-(x - hi) ^ 2 / d) else 1 :=
        Continuous.if_le hexp_hi continuous_const continuous_const
          continuous_id hside
      refine ContinuousAt.congr hgc.continuousAt ?_
      filter_upwards [Ioi_mem_nhds hlt] with x hx
      rw [constant_bump_func, if_neg (not_le.mpr hx)]
  exact ⟨hval lo le_rfl hlh, hval hi hlh le_rfl, hval, hcont_lo, hcont_hi⟩

/-- Claim C10 witness: at `x_low = 0`, `x_high = 1`, `decay = 1`, the bump is
1 at the left boundary and continuous there. -/
theorem constant_bump_boundary_witness :
    constant_bump 0 0 1 1 = 1 ∧
    ContinuousAt (fun x => constant_bump_func x 0 1 1) 0 :=
  ⟨(constant_bump_boundary 0 1 1 (by norm_num) (by norm_num)).1,
   (constant_bump_boundary 0 1 1 (by norm_num) (by norm_num)).2.2.2.1⟩

end Org
